import Mathlib

/-!
Verification development for the freesia request-handling toolkit.

The definitions below are shallow embeddings of:
* `src/router/createRoute.ts` (pattern compiler `createRegExp`, `createRoute`),
* `src/router/createSwitcher.ts` (`createSwitcher`),
* `src/router/index.ts` (`createSwRt` route-chain builder and its switcher),
* the `Respond` response class (bundled at the end of `README.md`),
* the `composeFn` composition utility,
* a model of the continuation-scoped context store (whose implementation is
  not part of the provided sources; it is modelled from the specification).

Theorems about the claims follow the definitions.
-/

namespace Freesia

/-- Regex elements produced by `createRegExp` in `src/router/createRoute.ts`
(lines 86-112).  The marker `:<n>` is rewritten to the group `(?<n>[^/]+?)`
(`seg`), `:{n}` to `(?<n>.+)` (`one`), `:[n]` to `(?<n>.*)` (`any`), and
`/:(n)` — together with its leading slash — to `((/(?<n>.*))?)` (`optPre`).
Characters outside markers stay literal (`lit`), and a trailing `(/?)` is
appended when the parsed pattern does not end in `/` (`optSlash`).  Literal
pattern characters are modelled as matching themselves; regex
metacharacters inside literal segments are not given their JS regex
meaning. -/
inductive RElem where
  | lit (c : Char)
  | seg (n : String)
  | one (n : String)
  | any (n : String)
  | optPre (n : String)
  | optSlash
deriving DecidableEq, Repr

/-- Character comparison for literal pattern characters: with the regex `i`
flag characters compare case-insensitively, without it exactly. -/
def charEq (ci : Bool) (a b : Char) : Bool :=
  if ci then a.toLower == b.toLower else a == b

/-- All ways to split a character list as `prefix ++ suffix`, shortest
prefix first — the order in which a lazy quantifier tries them. -/
def splitsInc : List Char → List (List Char × List Char)
  | [] => [([], [])]
  | c :: cs => ([], c :: cs) :: (splitsInc cs).map (fun p => (c :: p.1, p.2))

/-- All splits, longest prefix first — the order a greedy quantifier tries. -/
def splitsDec (cs : List Char) : List (List Char × List Char) :=
  (splitsInc cs).reverse

/-- Named captures recorded by one match, in group order; a group that did
not participate in the match (the skipped optional group of `optPre`)
records nothing, which models its JS value `undefined`. -/
abbrev Caps := List (String × List Char)

/-- Backtracking matcher for the compiled elements, anchored at both ends
(the source wraps the parsed pattern in `^...$`).  It returns the capture
assignments of every complete match, in the backtracking order of the JS
regex engine, so the head of the list is the match `exec` returns.  The `.`
of the source regexes is modelled as "any character" (request paths contain
no newline). -/
def matchElems (ci : Bool) (es : List RElem) (cs : List Char) : List Caps :=
  match es, cs with
  | [], cs => if cs.isEmpty then [[]] else []
  | .lit _ :: _, [] => []
  | .lit c :: es, c' :: cs => if charEq ci c c' then matchElems ci es cs else []
  | .seg n :: es, cs =>
    (splitsInc cs).flatMap (fun p =>
      if p.1 ≠ [] ∧ p.1.all (· != '/') then
        (matchElems ci es p.2).map (fun caps => (n, p.1) :: caps)
      else [])
  | .one n :: es, cs =>
    (splitsDec cs).flatMap (fun p =>
      if p.1 ≠ [] then
        (matchElems ci es p.2).map (fun caps => (n, p.1) :: caps)
      else [])
  | .any n :: es, cs =>
    (splitsDec cs).flatMap (fun p =>
      (matchElems ci es p.2).map (fun caps => (n, p.1) :: caps))
  | .optPre n :: es, cs =>
    (match cs with
     | c0 :: rest =>
       if c0 = '/' then
         (splitsDec rest).flatMap (fun p =>
           (matchElems ci es p.2).map (fun caps => (n, p.1) :: caps))
       else []
     | [] => []) ++ matchElems ci es cs
  | .optSlash :: es, cs =>
    (match cs with
     | c0 :: rest => if c0 = '/' then matchElems ci es rest else []
     | [] => []) ++ matchElems ci es cs

/-- Split a list at the first occurrence of `close`, mirroring the lazy
`.+?` of the marker regexes in `createRegExp`: a marker name is everything
strictly before the first closing bracket. -/
def splitAtClose (close : Char) : List Char → Option (List Char × List Char)
  | [] => none
  | c :: cs =>
    if c = close then some ([], cs)
    else (splitAtClose close cs).map (fun p => (c :: p.1, p.2))

/-- Tokenizer loop for route patterns, mirroring the `replaceAll` chain of
`createRegExp` on well-formed input: each of the four marker forms becomes
its element, a marker with an unbalanced bracket is not rewritten and its
characters stay literal, exactly as an unmatched `replaceAll` regex leaves
the text unchanged.  (Marker forms are modelled as documented; the source's
third rewrite also tolerates a missing `(` after `/:`, and nested marker
text, which no well-formed pattern contains.)  Every step consumes at least
one character, so the fuel — strictly larger than the number of remaining
characters at every call — never runs out. -/
def tokenizeGo (fuel : Nat) (cs : List Char) : List RElem :=
  match fuel with
  | 0 => []
  | fuel + 1 =>
    match cs with
    | [] => []
    | '/' :: ':' :: '(' :: rest =>
      match splitAtClose ')' rest with
      | some (n, rest') =>
        if n ≠ [] then .optPre (String.mk n) :: tokenizeGo fuel rest'
        else .lit '/' :: tokenizeGo fuel (':' :: '(' :: rest)
      | none => .lit '/' :: tokenizeGo fuel (':' :: '(' :: rest)
    | ':' :: '<' :: rest =>
      match splitAtClose '>' rest with
      | some (n, rest') =>
        if n ≠ [] then .seg (String.mk n) :: tokenizeGo fuel rest'
        else .lit ':' :: tokenizeGo fuel ('<' :: rest)
      | none => .lit ':' :: tokenizeGo fuel ('<' :: rest)
    | ':' :: '{' :: rest =>
      match splitAtClose '}' rest with
      | some (n, rest') =>
        if n ≠ [] then .one (String.mk n) :: tokenizeGo fuel rest'
        else .lit ':' :: tokenizeGo fuel ('{' :: rest)
      | none => .lit ':' :: tokenizeGo fuel ('{' :: rest)
    | ':' :: '[' :: rest =>
      match splitAtClose ']' rest with
      | some (n, rest') =>
        if n ≠ [] then .any (String.mk n) :: tokenizeGo fuel rest'
        else .lit ':' :: tokenizeGo fuel ('[' :: rest)
      | none => .lit ':' :: tokenizeGo fuel ('[' :: rest)
    | c :: rest => .lit c :: tokenizeGo fuel rest

/-- Tokenize a whole pattern. -/
def tokenize (cs : List Char) : List RElem := tokenizeGo (cs.length + 1) cs

/-- The name captured by an element, when it is a capturing marker. -/
def capName : RElem → Option String
  | .seg n => some n
  | .one n => some n
  | .any n => some n
  | .optPre n => some n
  | _ => none

/-- Names of the capturing groups of the parsed pattern, in order. -/
def capNames (es : List RElem) : List String := es.filterMap capName

/-- A compiled pattern: the case-insensitivity flag and the parsed
elements. -/
structure Re where
  ci : Bool
  elems : List RElem
deriving DecidableEq, Repr

/-- The source appends `(/?)` — an optional trailing separator — unless the
parsed pattern already ends in `/`; markers are rewritten to groups ending
in `)`, so "the parsed pattern ends in `/`" is "the last element is the
literal `/`". -/
def withTrailingSlashOpt (toks : List RElem) : List RElem :=
  match toks.getLast? with
  | some (.lit '/') => toks
  | _ => toks ++ [.optSlash]

/-- Model of `createRegExp` (src/router/createRoute.ts:86-112): rewrite the
four marker forms, append the optional trailing separator, and build the
regex.  `new RegExp` throws exactly when the produced source is invalid;
for patterns made of literals and well-formed markers that happens when two
named groups share a name, so the model returns `none` on duplicate capture
names. -/
def createRegExp (pattern : String) (flags : String) : Option Re :=
  let toks := withTrailingSlashOpt (tokenize pattern.data)
  if (capNames toks).Nodup then some ⟨flags.data.contains 'i', toks⟩ else none

/-- The value of `createRegExp` when the caller supplies no flags: the
source declares `flags = "i"` as the default. -/
def createRegExpDefault (pattern : String) : Option Re := createRegExp pattern "i"

/-- Model of `re.exec(url)`: the named captures of the first match in
backtracking order, or `none` when the url does not match. -/
def exec (re : Re) (url : String) : Option Caps :=
  (matchElems re.ci re.elems url.data).head?

/-- Compile `pattern` with `flags` and run `exec` on `url` (`none` also when
compilation fails). -/
def execP (pattern flags url : String) : Option Caps :=
  match createRegExp pattern flags with
  | some re => exec re url
  | none => none

/-- The two shapes of the `handlers` argument of `createRoute`
(src/router/createRoute.ts:4-8): a single handler function, or a
method-keyed map of handlers, modelled as an association list (the JS test
`method in handlers` becomes a key lookup). -/
inductive Handlers (R : Type) where
  | fn (h : Caps → Option R)
  | methods (m : List (String × (Caps → Option R)))

/-- Observable behaviour of one call of a route closure: the returned value
(JS `undefined` is `none`), whether `useURL("method")` was evaluated — a
Context Store read — and whether a handler from `handlers` was invoked. -/
structure RouteResult (R : Type) where
  result : Option R
  ctxRead : Bool
  handlerRun : Bool

/-- Model of the closure returned by `createRoute`
(src/router/createRoute.ts:38-48).  `method` is the value the Context Store
holds for the current request's method; `useURL("method")` reads it — that
line is reached on every call except a match with a single-function
handler, which returns beforehand. -/
def routeRun {R : Type} (re : Re) (handlers : Handlers R) (method : String)
    (url : String) : RouteResult R :=
  match exec re url, handlers with
  | some caps, .fn h => { result := h caps, ctxRead := false, handlerRun := true }
  | matched, hs =>
    match matched, hs with
    | some caps, .methods m =>
      match List.lookup method m with
      | some h => { result := h caps, ctxRead := true, handlerRun := true }
      | none => { result := none, ctxRead := true, handlerRun := false }
    | _, _ => { result := none, ctxRead := true, handlerRun := false }

/-- Model of `createRoute` (src/router/createRoute.ts:32-49): compile the
pattern once and close over the result; `none` models the construction call
throwing (see `createRegExp`). -/
def createRoute {R : Type} (pattern : String) (handlers : Handlers R)
    (flags : String) : Option (String → String → RouteResult R) :=
  (createRegExp pattern flags).map (fun re => routeRun re handlers)

/-- The type `Route<R>` of `src/router/createSwitcher.ts`: a function from
the url string to `R | undefined`. -/
abbrev Route (R : Type) := String → Option R

/-- Model of `createSwitcher` (src/router/createSwitcher.ts:16-22):
`routes.reduce((lastRouted, nextRoute) => lastRouted ?? nextRoute(url), undefined)`.
The match on the accumulator models `??`, which evaluates its right operand
only when the left one is nullish. -/
def createSwitcher {R : Type} (routes : List (Route R)) : Route R := fun url =>
  routes.foldl
    (fun lastRouted nextRoute =>
      match lastRouted with
      | some v => some v
      | none => nextRoute url)
    none

/-- Instrumented run of the same fold: the result together with the number
of route functions actually applied.  `??` short-circuits, so once the
accumulator is non-nullish the remaining reducer steps only forward it and
apply no further route. -/
def switcherTrace {R : Type} (routes : List (Route R)) (url : String) :
    Option R × Nat :=
  match routes with
  | [] => (none, 0)
  | r :: rs =>
    match r url with
    | some v => (some v, 1)
    | none =>
      let t := switcherTrace rs url
      (t.1, t.2 + 1)

/-- One plus the index of the first matching route (the routes a switcher
evaluates are exactly the ones before and including the first match), or
the number of routes when none matches. -/
def evalCount {R : Type} (routes : List (Route R)) (url : String) : Nat :=
  match routes with
  | [] => 0
  | r :: rs => if (r url).isSome then 1 else evalCount rs url + 1

/-- Model of the `createSwRt` chain (src/router/index.ts:140-149).  The JS
closure keeps a `routes` array; each `route(pattern, handler)` call rebinds
it to `[...routes, createRoute(pattern, handler)]` and hands out a switcher
built from a spread — hence a snapshot — of the current array.  `mk` stands
for `createRoute`; the result lists the switcher handed out after each
registration, given the routes `acc` registered so far. -/
def swRtChain {P H R : Type} (mk : P → H → Route R) :
    List (P × H) → List (Route R) → List (Route R)
  | [], _ => []
  | ph :: rest, acc =>
    let acc' := acc ++ [mk ph.1 ph.2]
    createSwitcher acc' :: swRtChain mk rest acc'

/-- The switchers handed out by a fresh `createSwRt()` chain after each of
the registrations in `regs`. -/
def swRtSwitchers {P H R : Type} (mk : P → H → Route R) (regs : List (P × H)) :
    List (Route R) :=
  swRtChain mk regs []

/-- Response body values of the `Respond` class: a string, or an opaque
Buffer / Stream object.  In JS an object is always truthy while a string is
truthy iff non-empty, which `bodyTruthy` records. -/
inductive ResponseBody where
  | str (s : String)
  | buf (id : Nat)
  | stream (id : Nat)
deriving DecidableEq, Repr

/-- JS truthiness of a present body value. -/
def bodyTruthy : ResponseBody → Bool
  | .str s => !s.isEmpty
  | .buf _ => true
  | .stream _ => true

/-- JS truthiness of the optional `_body` field (`undefined` is falsy). -/
def bodyOptTruthy : Option ResponseBody → Bool
  | none => false
  | some b => bodyTruthy b

/-- Header maps, modelled as association lists where a later entry for the
same key overrides an earlier one. -/
abbrev RespHeaders := List (String × String)

/-- The `Respond` class: private fields `_statusCode`, `_statusMessage`,
`_body`, `_headers`, all initially unset. -/
structure Respond where
  statusCodeF : Option Nat
  statusMessageF : Option String
  bodyF : Option ResponseBody
  headersF : RespHeaders
deriving DecidableEq, Repr

/-- A fresh `new Respond()`. -/
def Respond.empty : Respond := ⟨none, none, none, []⟩

/-- Model of `setStatusCode`. -/
def Respond.setStatusCode (r : Respond) (code : Nat) : Respond :=
  { r with statusCodeF := some code }

/-- Model of `setBody`. -/
def Respond.setBody (r : Respond) (body : ResponseBody) : Respond :=
  { r with bodyF := some body }

/-- Model of `setHeaders(...headers)`: object spread merges, later entries
overriding earlier ones, which appending association lists models. -/
def Respond.setHeaders (r : Respond) (headers : List RespHeaders) : Respond :=
  { r with headersF := r.headersF ++ headers.flatten }

/-- Model of the `statusCode` getter:
`this._statusCode ?? (this._body ? 200 : 404)` — note the second operand
tests the body's JS truthiness, not its presence. -/
def Respond.statusCode (r : Respond) : Nat :=
  match r.statusCodeF with
  | some code => code
  | none => if bodyOptTruthy r.bodyF then 200 else 404

/-- The runtime shapes `Respond.create` distinguishes by `typeof` tests: a
number (status code), a body (string / Buffer / Stream), or a headers
object. -/
inductive CreateArg where
  | code (c : Nat)
  | bodyArg (b : ResponseBody)
  | hdrs (h : RespHeaders)
deriving DecidableEq, Repr

/-- Model of `Respond.create(arg1?, arg2?, headers?)` (README.md:563-576).
The `typeof arg1 === "number"` branch sets the code, then treats a
body-shaped `arg2` as body and an object `arg2` as headers; the
body-shaped-`arg1` branch sets the body, then treats an object `arg2` as
headers; any other `arg1` is ignored.  A trailing `headers` argument is
merged last.  (A Buffer or Stream passed as `arg2` after a body would, in
JS, be spread into the headers as an object; no claim depends on that
corner and the model ignores such an `arg2`.) -/
def Respond.create (arg1 arg2 : Option CreateArg) (headers : Option RespHeaders) :
    Respond :=
  let response := Respond.empty
  let response :=
    match arg1 with
    | some (.code c) =>
      let r := response.setStatusCode c
      match arg2 with
      | some (.bodyArg b) => r.setBody b
      | some (.hdrs h) => r.setHeaders [h]
      | _ => r
    | some (.bodyArg b) =>
      let r := response.setBody b
      match arg2 with
      | some (.hdrs h) => r.setHeaders [h]
      | _ => r
    | _ => response
  match headers with
  | some h => response.setHeaders [h]
  | none => response

/-- `baseCompose` from the compose utility: apply `a`, then `b`. -/
def baseCompose {T R S : Type} (a : T → R) (b : R → S) : T → S := fun t => b (a t)

/-- A `Composer<T, R>` object is fully determined by the `currentFn` it
closes over (`next` returns `composeFn(baseCompose(currentFn, fn))`, and the
`fn` getter returns `currentFn`), so the object is represented by that
function. -/
def Composer (T R : Type) : Type := T → R

/-- Model of `composeFn(currentFn)`. -/
def composeFn {T R : Type} (currentFn : T → R) : Composer T R := currentFn

/-- Model of the `next` method of a composer. -/
def Composer.next {T R V : Type} (c : Composer T R) (anotherFn : R → V) :
    Composer T V :=
  composeFn (baseCompose c anotherFn)

/-- Model of the `fn` getter of a composer. -/
def Composer.fn {T R : Type} (c : Composer T R) : T → R := c

/-- Modelled from the spec: the Context Store of §4.3 (its implementation,
`createContext` over continuation-local storage, is not under `src/`).  One
cell created by one `createContext` call; ScopeFrames are numbered, and the
store keeps one slot per frame.  A cell operation is a write, a read, or a
reset, always acting on the slot of the frame it runs under. -/
inductive CtxOp (V : Type) where
  | write (v : V)
  | read
  | reset
deriving DecidableEq, Repr

/-- An operation tagged with the ScopeFrame it executes under: every
operation of a request's call tree carries that request's frame. -/
abbrev TOp (V : Type) := Nat × CtxOp V

/-- The cell's storage: the slot of each frame. -/
def CtxState (V : Type) : Type := Nat → Option V

/-- The store before any request wrote the cell. -/
def ctxEmpty {V : Type} : CtxState V := fun _ => none

/-- Update the slot of frame `f` only. -/
def ctxSet {V : Type} (s : CtxState V) (f : Nat) (v : Option V) : CtxState V :=
  fun g => if g = f then v else s g

/-- Run a sequence of frame-tagged operations from state `s`, collecting
each read's observation as `(frame, value read)`. -/
def ctxRun {V : Type} (s : CtxState V) : List (TOp V) → List (Nat × Option V)
  | [] => []
  | (f, .write v) :: rest => ctxRun (ctxSet s f (some v)) rest
  | (f, .read) :: rest => (f, s f) :: ctxRun s rest
  | (f, .reset) :: rest => ctxRun (ctxSet s f none) rest

/-- The values read inside frame `f`, in order. -/
def readsOf {V : Type} (f : Nat) (obs : List (Nat × Option V)) : List (Option V) :=
  (obs.filter (fun o => o.1 == f)).map (·.2)

/-- Tag every operation of one request's call tree with its frame. -/
def tagOps {V : Type} (f : Nat) (ops : List (CtxOp V)) : List (TOp V) :=
  ops.map (fun op => (f, op))

/-- Whether `l` is an interleaving of `as` and `bs` that keeps the internal
order of each: the spec's "any interleaving of their suspension points" on
one cooperative execution stream (§5). -/
def isInterleaving {V : Type} [DecidableEq V] :
    List (TOp V) → List (TOp V) → List (TOp V) → Bool
  | as, bs, [] => as.isEmpty && bs.isEmpty
  | as, bs, c :: cs =>
    (match as with
     | a :: as' => decide (a = c) && isInterleaving as' bs cs
     | [] => false)
    || (match bs with
        | b :: bs' => decide (b = c) && isInterleaving as bs' cs
        | [] => false)

/-- The constraint a capture value satisfies by construction of the group
its marker compiles to: `(?<n>[^/]+?)` (from `:<n>`) captures a non-empty
string that never spans `/`; `(?<n>.+)` (from `:{n}`) captures a non-empty
string; `(?<n>.*)` (from `:[n]`) and the inner group of `((/(?<n>.*))?)`
(from `/:(n)`) capture any string. -/
def capOK : RElem → List Char → Prop
  | .seg _, v => v ≠ [] ∧ v.all (· != '/') = true
  | .one _, v => v ≠ []
  | _, _ => True

/-- Two paths are case variants when they have the same length and their
characters agree up to case (`Char.toLower`), the comparison the `i` flag
uses. -/
def caseVariant : List Char → List Char → Bool
  | [], [] => true
  | a :: as, b :: bs => (a.toLower == b.toLower) && caseVariant as bs
  | _, _ => false

/-- Convenience for concrete instances: the compiled regex of a pattern
(the default is irrelevant — it is only used where compilation succeeds). -/
def reOf (pattern flags : String) : Re :=
  (createRegExp pattern flags).getD ⟨true, []⟩

/-- Concrete routes used to instantiate the switcher theorems: the first
and the third match `/a`, the second matches nothing. -/
def c2Routes : List (Route Nat) :=
  [fun u => if u = "/a" then some 1 else none,
   fun _ => none,
   fun u => if u = "/a" then some 3 else none]

/-- A concrete route factory used to instantiate the chain theorems: the
route matches exactly its pattern string. -/
def mkEq (p : String) (_handler : String) : Route String :=
  fun u => if u = p then some p else none

end Freesia

namespace Freesia

/-- Claim C10: for functions `f` and `g` and every input `x`, the composer
satisfies `composeFn(f).fn(x) = f(x)` and
`composeFn(f).next(g).fn(x) = g(f(x))`; and in general each `next` appends
one function applied after all the previously composed ones. -/
theorem C10_composeFn {T R S : Type} (f : T → R) (g : R → S) (x : T) :
    (composeFn f).fn x = f x ∧
    ((composeFn f).next g).fn x = g (f x) ∧
    (∀ (V : Type) (c : Composer T R) (h : R → V), (c.next h).fn x = h (c.fn x)) :=
  ⟨rfl, rfl, fun _ _ _ => rfl⟩

/-- Counterexample to claim C8: `Respond.create("")` stores the empty
string as the body — a body is present and no code was set — yet the
effective status code is 404, not 200: the getter
`this._statusCode ?? (this._body ? 200 : 404)` tests the body's JS
truthiness and `""` is falsy. -/
theorem C8_counterexample :
    (Respond.create (some (.bodyArg (.str ""))) none none).bodyF = some (.str "") ∧
    (Respond.create (some (.bodyArg (.str ""))) none none).statusCodeF = none ∧
    (Respond.create (some (.bodyArg (.str ""))) none none).statusCode = 404 :=
  ⟨rfl, rfl, rfl⟩

/-- Claim C8 (amended): the effective status code is the explicitly set
code when one was set; otherwise it is 200 when a truthy body is present (a
non-empty string, a Buffer or a Stream) and 404 when the body is absent or
falsy (the empty string) — in particular 404 when neither a body nor a code
was given. -/
theorem C8_statusCode_defaulting :
    (∀ (c : Nat) (arg2 : Option CreateArg) (h : Option RespHeaders),
      (Respond.create (some (.code c)) arg2 h).statusCode = c) ∧
    (∀ (b : ResponseBody) (arg2 : Option CreateArg) (h : Option RespHeaders),
      bodyTruthy b = true →
        (Respond.create (some (.bodyArg b)) arg2 h).statusCode = 200) ∧
    (∀ (b : ResponseBody) (arg2 : Option CreateArg) (h : Option RespHeaders),
      bodyTruthy b = false →
        (Respond.create (some (.bodyArg b)) arg2 h).statusCode = 404) ∧
    (∀ h : Option RespHeaders, (Respond.create none none h).statusCode = 404) := by
  refine ⟨?_, ?_, ?_, ?_⟩
  · intro c arg2 h
    rcases arg2 with _ | arg2 <;> [skip; rcases arg2 with c2 | b2 | h2] <;>
      rcases h with _ | h <;>
        simp [Respond.create, Respond.empty, Respond.setStatusCode, Respond.setBody,
          Respond.setHeaders, Respond.statusCode]
  · intro b arg2 h hb
    rcases arg2 with _ | arg2 <;> [skip; rcases arg2 with c2 | b2 | h2] <;>
      rcases h with _ | h <;>
        simp [Respond.create, Respond.empty, Respond.setStatusCode, Respond.setBody,
          Respond.setHeaders, Respond.statusCode, bodyOptTruthy, hb]
  · intro b arg2 h hb
    rcases arg2 with _ | arg2 <;> [skip; rcases arg2 with c2 | b2 | h2] <;>
      rcases h with _ | h <;>
        simp [Respond.create, Respond.empty, Respond.setStatusCode, Respond.setBody,
          Respond.setHeaders, Respond.statusCode, bodyOptTruthy, hb]
  · intro h
    rcases h with _ | h <;>
      simp [Respond.create, Respond.empty, Respond.setHeaders, Respond.statusCode,
        bodyOptTruthy]

/-- Witness for `C8_statusCode_defaulting`: a non-empty string body with no
explicit status yields 200. -/
theorem C8_statusCode_defaulting_witness :
    bodyTruthy (.str "x") = true ∧
    (Respond.create (some (.bodyArg (.str "x"))) none none).statusCode = 200 :=
  ⟨by decide, C8_statusCode_defaulting.2.1 (.str "x") none none (by decide)⟩

/-- Counterexample to claim C6: a marker with an unbalanced bracket is not
a construction-time error.  `/:<a` compiles successfully — the unmatched
marker text is left in place by `replaceAll` and becomes the literal
characters `/:<a` — and the resulting matcher matches the literal path
`/:<a`, so construction neither raises nor produces a route, as the claim
would have it, at all. -/
theorem C6_counterexample :
    createRegExp "/:<a" "i" =
      some ⟨true, [.lit '/', .lit ':', .lit '<', .lit 'a', .optSlash]⟩ ∧
    execP "/:<a" "i" "/:<a" = some [] :=
  ⟨rfl, rfl⟩

/-- Claim C6 (amended): duplicate parameter names do raise at route
construction time, before any request is handled (`new RegExp` rejects a
source with two named groups of the same name, modelled by `createRegExp`
returning `none`), and a route compiled from a well-formed pattern never
throws at match time (the matcher is a total function); but a marker with
an unbalanced bracket does not raise — its text silently becomes literal
path characters. -/
theorem C6_construction_errors (pattern flags : String)
    (hdup : ¬ (capNames (tokenize pattern.data)).Nodup) :
    createRegExp pattern flags = none ∧
    createRegExp "/:<a>/:<a>" "i" = none ∧
    (createRegExp "/:<a" "i").isSome = true := by
  refine ⟨?_, by decide, by decide⟩
  have hnames : capNames (withTrailingSlashOpt (tokenize pattern.data)) =
      capNames (tokenize pattern.data) := by
    unfold withTrailingSlashOpt
    split <;> simp [capNames, List.filterMap_append, capName]
  simp [createRegExp, hnames, hdup]

/-- Witness for `C6_construction_errors`: the duplicate-name pattern
`/:<a>/:<a>` fails at construction. -/
theorem C6_construction_errors_witness :
    ¬ (capNames (tokenize "/:<a>/:<a>".data)).Nodup ∧
    createRegExp "/:<a>/:<a>" "i" = none :=
  ⟨by decide, (C6_construction_errors "/:<a>/:<a>" "i" (by decide)).1⟩

/-- Claim C5 (amended): for every route and every non-matching path, the
call returns the absent value, never invokes a handler, and returns
normally (the route body is a total function of the Context Store's method
value); however it is not side-effect free: `useURL("method")` — a Context
Store read — is evaluated on every non-matching call. -/
theorem C5_no_match_behaviour {R : Type} (re : Re) (handlers : Handlers R)
    (method url : String) (h : exec re url = none) :
    routeRun re handlers method url =
      { result := none, ctxRead := true, handlerRun := false } := by
  cases handlers <;> simp [routeRun, h]

/-- Counterexample to claim C5: the pattern `/a` does not match `/b`; the
call returns the absent value and runs no handler, but `ctxRead` is `true`:
the closure evaluates `useURL("method")` (src/router/createRoute.ts:43)
before testing the handler shape, on every call that did not already
return — in particular on every non-matching call — contradicting
"performs no side effects (in particular no context-store read)". -/
theorem C5_counterexample :
    exec (reOf "/a" "i") "/b" = none ∧
    routeRun (reOf "/a" "i") (.fn (fun _ => (some 0 : Option Nat))) "GET" "/b"
      = { result := none, ctxRead := true, handlerRun := false } :=
  ⟨rfl, rfl⟩

/-- Witness for `C5_no_match_behaviour`, at a method-map route and the
non-matching path `/b`. -/
theorem C5_no_match_behaviour_witness :
    exec (reOf "/a" "i") "/b" = none ∧
    routeRun (reOf "/a" "i") (.methods ([] : List (String × (Caps → Option Nat))))
        "GET" "/b"
      = { result := none, ctxRead := true, handlerRun := false } :=
  ⟨rfl, C5_no_match_behaviour _ _ "GET" "/b" rfl⟩

/-- Claim C4: when the path matches but the method-keyed handler map has no
entry for the current request's method, the route returns the absent value
(so callers can try subsequent routes), invokes no handler from the map,
and raises no error — the call returns normally. -/
theorem C4_method_map_fallthrough {R : Type} (re : Re)
    (m : List (String × (Caps → Option R))) (method url : String) (caps : Caps)
    (hmatch : exec re url = some caps) (hmiss : List.lookup method m = none) :
    routeRun re (.methods m) method url =
      { result := none, ctxRead := true, handlerRun := false } := by
  simp [routeRun, hmatch, hmiss]

/-- Witness for `C4_method_map_fallthrough`: a GET-only route receiving a
POST request on a matching path. -/
theorem C4_method_map_fallthrough_witness :
    exec (reOf "/user/:<name>" "i") "/user/miku" = some [("name", ['m','i','k','u'])] ∧
    routeRun (reOf "/user/:<name>" "i")
        (.methods [("GET", fun _ => (some 1 : Option Nat))]) "POST" "/user/miku"
      = { result := none, ctxRead := true, handlerRun := false } :=
  ⟨rfl, C4_method_map_fallthrough _ _ "POST" "/user/miku" [("name", ['m','i','k','u'])] rfl rfl⟩

/-- The fold of `createSwitcher` started from any accumulator: once the
accumulator is non-nullish, `last ?? next(url)` keeps it; from a nullish
accumulator the fold computes the first non-absent route result. -/
theorem switcherFold_eq {R : Type} (url : String) :
    ∀ (rs : List (Route R)) (init : Option R),
      rs.foldl (fun lastRouted nextRoute =>
        match lastRouted with
        | some v => some v
        | none => nextRoute url) init =
      (match init with
       | some v => some v
       | none => rs.findSome? (fun r => r url)) := by
  intro rs
  induction rs with
  | nil => intro init; cases init <;> simp [List.findSome?]
  | cons r rs ih =>
    intro init
    cases init with
    | some v => rw [List.foldl_cons]; exact ih (some v)
    | none =>
      rw [List.foldl_cons]
      refine (ih (r url)).trans ?_
      cases h : r url <;> simp [List.findSome?, h]

/-- A switcher returns the first non-absent route result, in route order. -/
theorem createSwitcher_eq_findSome {R : Type} (routes : List (Route R)) (url : String) :
    createSwitcher routes url = routes.findSome? (fun r => r url) :=
  switcherFold_eq url routes none

/-- The instrumented switcher run agrees with `createSwitcher` and applies
exactly `evalCount` routes. -/
theorem switcherTrace_spec {R : Type} (url : String) :
    ∀ routes : List (Route R),
      switcherTrace routes url = (createSwitcher routes url, evalCount routes url) := by
  intro routes
  induction routes with
  | nil => rfl
  | cons r rs ih =>
    have hsw : createSwitcher (r :: rs) url =
        (match r url with
         | some v => some v
         | none => createSwitcher rs url) := by
      rw [createSwitcher_eq_findSome, createSwitcher_eq_findSome]
      cases h : r url <;> simp [List.findSome?, h]
    cases h : r url with
    | some v => simp [switcherTrace, evalCount, h, hsw]
    | none => simp [switcherTrace, evalCount, h, hsw, ih]

/-- The switcher applies no route beyond the first matching one: if route
`i` matches, at most `i + 1` routes are applied. -/
theorem evalCount_le_of_isSome {R : Type} (url : String) :
    ∀ (routes : List (Route R)) (i : Fin routes.length),
      ((routes.get i) url).isSome = true → evalCount routes url ≤ i.1 + 1 := by
  intro routes
  induction routes with
  | nil => intro i; exact absurd i.2 (by simp)
  | cons r rs ih =>
    intro i hi
    cases h : r url with
    | some v => simp [evalCount, h]
    | none =>
      cases i using Fin.cases with
      | zero => simp [List.get] at hi; simp [h] at hi
      | succ j =>
        have hj : ((rs.get j) url).isSome = true := by simpa [List.get] using hi
        have := ih j hj
        simp only [evalCount, h]
        simp only [Option.isSome_none, Bool.false_eq_true, if_false]
        simpa using Nat.add_le_add_right this 1

/-- Claim C2: a switcher evaluates its routes strictly in argument order
and returns the first non-absent result (`List.findSome?` in route order);
the instrumented run shows that exactly the routes up to and including the
first match are applied — `evalCount` is one plus the index of the first
match — so the routes after the first match are never invoked and their
handlers' side effects never occur; and when no route matches the switcher
returns the absent value. -/
theorem C2_switcher_first_match {R : Type} (routes : List (Route R)) (url : String) :
    createSwitcher routes url = routes.findSome? (fun r => r url) ∧
    switcherTrace routes url = (createSwitcher routes url, evalCount routes url) ∧
    (∀ i : Fin routes.length, ((routes.get i) url).isSome = true →
      evalCount routes url ≤ i.1 + 1) ∧
    ((∀ r ∈ routes, r url = none) → createSwitcher routes url = none) := by
  refine ⟨createSwitcher_eq_findSome routes url, switcherTrace_spec url routes,
    fun i hi => evalCount_le_of_isSome url routes i hi, fun hall => ?_⟩
  rw [createSwitcher_eq_findSome]
  exact List.findSome?_eq_none_iff.mpr hall

/-- Witness for `C2_switcher_first_match` at `c2Routes`: on `/a` the first
route matches so only one route is applied; on `/x` nothing matches and the
switcher is absent. -/
theorem C2_switcher_first_match_witness :
    ((c2Routes.get ⟨0, by decide⟩) "/a").isSome = true ∧
    evalCount c2Routes "/a" ≤ 1 ∧
    (∀ r ∈ c2Routes, r "/x" = none) ∧
    createSwitcher c2Routes "/x" = none :=
  ⟨by decide,
   (C2_switcher_first_match c2Routes "/a").2.2.1 ⟨0, by decide⟩ (by decide),
   by decide,
   (C2_switcher_first_match c2Routes "/x").2.2.2 (by decide)⟩

/-- Each switcher handed out by the `createSwRt` chain is the switcher over
the routes registered so far, in order (`acc` are the routes registered
before this part of the chain runs). -/
theorem swRtChain_getElem {P H R : Type} (mk : P → H → Route R) :
    ∀ (regs : List (P × H)) (acc : List (Route R)) (n : Nat),
      (swRtChain mk regs acc)[n]? =
        if n < regs.length then
          some (createSwitcher (acc ++ (regs.take (n + 1)).map (fun ph => mk ph.1 ph.2)))
        else none := by
  intro regs
  induction regs with
  | nil => intro acc n; simp [swRtChain]
  | cons ph rest ih =>
    intro acc n
    cases n with
    | zero => simp [swRtChain]
    | succ n =>
      simp only [swRtChain, List.getElem?_cons_succ, ih, List.length_cons,
        List.take_succ_cons, List.map_cons]
      by_cases hn : n < rest.length
      · simp [hn, Nat.succ_lt_succ_iff, List.append_assoc]
      · simp [hn, Nat.succ_lt_succ_iff]

/-- Claim C7: the switcher obtained after the N-th registration on the
`createSwRt` chain dispatches across exactly the first N registered routes,
in registration order; registrations made later never change a switcher
obtained earlier (the source spreads a snapshot of the `routes` array into
`createSwitcher`); and the switcher of the empty chain matches nothing, so
earlier registrations are never lost by later ones. -/
theorem C7_swRt_chain {P H R : Type} (mk : P → H → Route R) (regs more : List (P × H))
    (n : Nat) (url : String) :
    (swRtSwitchers mk regs)[n]? =
      (if n < regs.length then
        some (createSwitcher ((regs.take (n + 1)).map (fun ph => mk ph.1 ph.2)))
      else none) ∧
    (n < regs.length →
      (swRtSwitchers mk (regs ++ more))[n]? = (swRtSwitchers mk regs)[n]?) ∧
    createSwitcher ([] : List (Route R)) url = none := by
  refine ⟨?_, ?_, rfl⟩
  · simpa using swRtChain_getElem mk regs [] n
  · intro hn
    unfold swRtSwitchers
    rw [swRtChain_getElem, swRtChain_getElem]
    have h1 : n < (regs ++ more).length := by simp; omega
    rw [if_pos h1, if_pos hn, List.take_append_of_le_length (by omega)]

/-- Every capture recorded by any match is produced by a marker element of
the element list and satisfies that marker's constraint (`capOK`). -/
theorem matchElems_caps_sound (ci : Bool) :
    ∀ (es : List RElem) (cs : List Char) (caps : Caps),
      caps ∈ matchElems ci es cs → ∀ n v, (n, v) ∈ caps →
        ∃ e ∈ es, capName e = some n ∧ capOK e v := by
  intro es
  induction es with
  | nil =>
    intro cs caps hc n v hnv
    simp only [matchElems] at hc
    split at hc
    · simp only [List.mem_singleton] at hc
      subst hc
      simp at hnv
    · simp at hc
  | cons e es ih =>
    intro cs caps hc n v hnv
    cases e with
    | lit c =>
      cases cs with
      | nil => simp [matchElems] at hc
      | cons a as =>
        simp only [matchElems] at hc
        split at hc
        · obtain ⟨e', he', hrest⟩ := ih as caps hc n v hnv
          exact ⟨e', List.mem_cons_of_mem _ he', hrest⟩
        · simp at hc
    | seg nm =>
      simp only [matchElems] at hc
      rw [List.mem_flatMap] at hc
      obtain ⟨p, hp, hcp⟩ := hc
      split at hcp
      · next hcond =>
        rw [List.mem_map] at hcp
        obtain ⟨caps0, hcaps0, rfl⟩ := hcp
        rw [List.mem_cons] at hnv
        rcases hnv with hnv | hnv
        · rw [Prod.mk.injEq] at hnv
          refine ⟨.seg nm, List.mem_cons_self _ _, by simp [capName, hnv.1], ?_⟩
          rw [hnv.2]
          exact hcond
        · obtain ⟨e', he', hrest⟩ := ih p.2 caps0 hcaps0 n v hnv
          exact ⟨e', List.mem_cons_of_mem _ he', hrest⟩
      · simp at hcp
    | one nm =>
      simp only [matchElems] at hc
      rw [List.mem_flatMap] at hc
      obtain ⟨p, hp, hcp⟩ := hc
      split at hcp
      · next hcond =>
        rw [List.mem_map] at hcp
        obtain ⟨caps0, hcaps0, rfl⟩ := hcp
        rw [List.mem_cons] at hnv
        rcases hnv with hnv | hnv
        · rw [Prod.mk.injEq] at hnv
          refine ⟨.one nm, List.mem_cons_self _ _, by simp [capName, hnv.1], ?_⟩
          rw [hnv.2]
          exact hcond
        · obtain ⟨e', he', hrest⟩ := ih p.2 caps0 hcaps0 n v hnv
          exact ⟨e', List.mem_cons_of_mem _ he', hrest⟩
      · simp at hcp
    | any nm =>
      simp only [matchElems] at hc
      rw [List.mem_flatMap] at hc
      obtain ⟨p, hp, hcp⟩ := hc
      rw [List.mem_map] at hcp
      obtain ⟨caps0, hcaps0, rfl⟩ := hcp
      rw [List.mem_cons] at hnv
      rcases hnv with hnv | hnv
      · rw [Prod.mk.injEq] at hnv
        exact ⟨.any nm, List.mem_cons_self _ _, by simp [capName, hnv.1], trivial⟩
      · obtain ⟨e', he', hrest⟩ := ih p.2 caps0 hcaps0 n v hnv
        exact ⟨e', List.mem_cons_of_mem _ he', hrest⟩
    | optPre nm =>
      simp only [matchElems] at hc
      rw [List.mem_append] at hc
      rcases hc with hc | hc
      · split at hc
        · split at hc
          · rw [List.mem_flatMap] at hc
            obtain ⟨p, hp, hcp⟩ := hc
            rw [List.mem_map] at hcp
            obtain ⟨caps0, hcaps0, rfl⟩ := hcp
            rw [List.mem_cons] at hnv
            rcases hnv with hnv | hnv
            · rw [Prod.mk.injEq] at hnv
              exact ⟨.optPre nm, List.mem_cons_self _ _, by simp [capName, hnv.1], trivial⟩
            · obtain ⟨e', he', hrest⟩ := ih p.2 caps0 hcaps0 n v hnv
              exact ⟨e', List.mem_cons_of_mem _ he', hrest⟩
          · simp at hc
        · simp at hc
      · obtain ⟨e', he', hrest⟩ := ih cs caps hc n v hnv
        exact ⟨e', List.mem_cons_of_mem _ he', hrest⟩
    | optSlash =>
      simp only [matchElems] at hc
      rw [List.mem_append] at hc
      rcases hc with hc | hc
      · split at hc
        · split at hc
          · obtain ⟨e', he', hrest⟩ := ih _ caps hc n v hnv
            exact ⟨e', List.mem_cons_of_mem _ he', hrest⟩
          · simp at hc
        · simp at hc
      · obtain ⟨e', he', hrest⟩ := ih cs caps hc n v hnv
        exact ⟨e', List.mem_cons_of_mem _ he', hrest⟩

/-- Claim C3: the four marker forms have their stated capture semantics.
Universally, any capture of any match of a compiled pattern is produced by
a marker element and satisfies its constraint — a `:<name>` capture is
never empty and never spans `/`, and a `:{name}` capture is never empty
(see `capOK`).  Concretely, `:{x}` does span `/` and rejects the empty
value; `:[x]` accepts the empty value and spans `/`; `:<x>` rejects
multi-segment and empty values while accepting a trailing separator; and
`:(x)` lets the whole path match with the parameter and its preceding `/`
both omitted — the capture then records nothing, the JS group being
`undefined`. -/
theorem C3_marker_semantics :
    (∀ (ci : Bool) (es : List RElem) (cs : List Char) (caps : Caps),
      caps ∈ matchElems ci es cs → ∀ n v, (n, v) ∈ caps →
        ∃ e ∈ es, capName e = some n ∧ capOK e v) ∧
    execP "/a/:{x}" "i" "/a/b/c" = some [("x", ['b', '/', 'c'])] ∧
    execP "/a/:{x}" "i" "/a/" = none ∧
    execP "/a/:[x]" "i" "/a/" = some [("x", [])] ∧
    execP "/a/:[x]" "i" "/a/b/c" = some [("x", ['b', '/', 'c'])] ∧
    execP "/u/:<x>" "i" "/u/a/b" = none ∧
    execP "/u/:<x>" "i" "/u/" = none ∧
    execP "/u/:<x>" "i" "/u/ab/" = some [("x", ['a', 'b'])] ∧
    execP "/hello/:(x)" "i" "/hello" = some [] ∧
    execP "/hello/:(x)" "i" "/hello/js/freesia" =
      some [("x", ['j', 's', '/', 'f', 'r', 'e', 'e', 's', 'i', 'a'])] :=
  ⟨matchElems_caps_sound, by decide, by decide, by decide, by decide, by decide,
   by decide, by decide, by decide, by decide⟩

/-- Witness for `C3_marker_semantics`: the concrete match of `/u/:<x>`
against `/u/ab` carries the capture `x = "ab"`, and the universal part
yields its marker constraint. -/
theorem C3_marker_semantics_witness :
    [("x", ['a', 'b'])] ∈
      matchElems true (reOf "/u/:<x>" "i").elems "/u/ab".data ∧
    ("x", ['a', 'b']) ∈ ([("x", ['a', 'b'])] : Caps) ∧
    (∃ e ∈ (reOf "/u/:<x>" "i").elems, capName e = some "x" ∧ capOK e ['a', 'b']) :=
  ⟨by decide, by decide,
   C3_marker_semantics.1 true (reOf "/u/:<x>" "i").elems "/u/ab".data
     [("x", ['a', 'b'])] (by decide) "x" ['a', 'b'] (by decide)⟩

/-- Witness for `C7_swRt_chain`: with two registrations and a later third,
the switcher obtained after the first registration is unchanged. -/
theorem C7_swRt_chain_witness :
    0 < [("/a", "h1"), ("/b", "h2")].length ∧
    (swRtSwitchers mkEq ([("/a", "h1"), ("/b", "h2")] ++ [("/c", "h3")]))[0]? =
      (swRtSwitchers mkEq [("/a", "h1"), ("/b", "h2")])[0]? :=
  ⟨by decide,
   (C7_swRt_chain mkEq [("/a", "h1"), ("/b", "h2")] [("/c", "h3")] 0 "/a").2.1 (by decide)⟩

/-- Only `/` lowers to `/`: `Char.toLower` maps uppercase basic latin
letters to lowercase ones and leaves every other character unchanged, so a
character whose lowering is `/` is `/` itself (the `[^/]` class and the
`/:(n)` separator are unaffected by the `i` flag). -/
theorem toLower_eq_slash_iff {a : Char} : a.toLower = '/' ↔ a = '/' := by
  constructor
  · intro h0
    have h : (if a.toNat ≥ 65 ∧ a.toNat ≤ 90 then Char.ofNat (a.toNat + 32) else a)
        = '/' := h0
    split at h
    · next hcond =>
      exfalso
      have hv : (a.toNat + 32).isValidChar := Or.inl (by omega)
      have h2 := congrArg Char.toNat h
      have h3 : (Char.ofNat (a.toNat + 32)).toNat = a.toNat + 32 := by
        unfold Char.ofNat
        rw [dif_pos hv]
        rfl
      have h4 : ('/' : Char).toNat = 47 := rfl
      rw [h3, h4] at h2
      omega
    · exact h
  · intro h
    subst h
    decide

/-- Unfolding lemma: no list is a case variant of a list of another
length. -/
theorem caseVariant_nil_cons {b : Char} {bs : List Char} :
    caseVariant [] (b :: bs) = false := rfl

/-- Unfolding lemma, the mirror of `caseVariant_nil_cons`. -/
theorem caseVariant_cons_nil {a : Char} {as : List Char} :
    caseVariant (a :: as) [] = false := rfl

/-- Unfolding lemma for case variance of two non-empty lists. -/
theorem caseVariant_cons_cons {a b : Char} {as bs : List Char} :
    caseVariant (a :: as) (b :: bs) =
      ((a.toLower == b.toLower) && caseVariant as bs) := rfl

/-- Case-variant lists have equal length. -/
theorem caseVariant_length : ∀ {as bs : List Char}, caseVariant as bs = true →
    as.length = bs.length := by
  intro as
  induction as with
  | nil =>
    intro bs h
    cases bs with
    | nil => rfl
    | cons b bs => simp [caseVariant_nil_cons] at h
  | cons a as ih =>
    intro bs h
    cases bs with
    | nil => simp [caseVariant_cons_nil] at h
    | cons b bs =>
      simp only [caseVariant_cons_cons, Bool.and_eq_true] at h
      simp [ih h.2]

/-- Case variance is symmetric. -/
theorem caseVariant_symm : ∀ as bs : List Char, caseVariant as bs = caseVariant bs as := by
  intro as
  induction as with
  | nil => intro bs; cases bs <;> rfl
  | cons a as ih =>
    intro bs
    cases bs with
    | nil => rfl
    | cons b bs =>
      simp only [caseVariant_cons_cons, ih]
      have h1 : (a.toLower == b.toLower) = (b.toLower == a.toLower) := by
        by_cases h : a.toLower = b.toLower
        · simp [h]
        · have h' : ¬ b.toLower = a.toLower := fun hh => h hh.symm
          simp [h, h']
      rw [h1]

/-- The slash-freedom test of the `[^/]+?` class transfers across case
variance. -/
theorem caseVariant_all_ne_slash : ∀ {as bs : List Char}, caseVariant as bs = true →
    as.all (· != '/') = bs.all (· != '/') := by
  intro as
  induction as with
  | nil =>
    intro bs h
    cases bs with
    | nil => rfl
    | cons b bs => simp [caseVariant_nil_cons] at h
  | cons a as ih =>
    intro bs h
    cases bs with
    | nil => simp [caseVariant_cons_nil] at h
    | cons b bs =>
      simp only [caseVariant_cons_cons, Bool.and_eq_true, beq_iff_eq] at h
      have hslash : (a != '/') = (b != '/') := by
        by_cases ha : a = '/'
        · subst ha
          have hb : b = '/' := toLower_eq_slash_iff.mp (by rw [← h.1]; decide)
          subst hb
          rfl
        · by_cases hb : b = '/'
          · subst hb
            exact absurd (toLower_eq_slash_iff.mp (by rw [h.1]; decide)) ha
          · have h1 : (a != '/') = true := by simp [ha]
            have h2 : (b != '/') = true := by simp [hb]
            rw [h1, h2]
      simp only [List.all_cons, hslash, ih h.2]

/-- Splits of case-variant lists correspond: every split of one has a split
of the other with case-variant components. -/
theorem splitsInc_caseVariant :
    ∀ (cs cs' : List Char), caseVariant cs cs' = true →
      ∀ p ∈ splitsInc cs, ∃ q ∈ splitsInc cs',
        caseVariant p.1 q.1 = true ∧ caseVariant p.2 q.2 = true := by
  intro cs
  induction cs with
  | nil =>
    intro cs' h p hp
    cases cs' with
    | nil =>
      simp only [splitsInc, List.mem_singleton] at hp
      subst hp
      exact ⟨([], []), by simp [splitsInc], rfl, rfl⟩
    | cons b bs => simp [caseVariant_nil_cons] at h
  | cons c cs ih =>
    intro cs' h p hp
    cases cs' with
    | nil => simp [caseVariant_cons_nil] at h
    | cons b bs =>
      simp only [caseVariant_cons_cons, Bool.and_eq_true] at h
      simp only [splitsInc, List.mem_cons] at hp
      rcases hp with rfl | hp
      · refine ⟨([], b :: bs), by simp [splitsInc], rfl, ?_⟩
        simp only [caseVariant_cons_cons, Bool.and_eq_true]
        exact ⟨h.1, h.2⟩
      · rw [List.mem_map] at hp
        obtain ⟨p0, hp0, rfl⟩ := hp
        obtain ⟨q0, hq0, hq1, hq2⟩ := ih bs h.2 p0 hp0
        refine ⟨(b :: q0.1, q0.2), ?_, ?_, hq2⟩
        · simp only [splitsInc, List.mem_cons]
          right
          rw [List.mem_map]
          exact ⟨q0, hq0, rfl⟩
        · simp only [caseVariant_cons_cons, Bool.and_eq_true]
          exact ⟨h.1, hq1⟩

/-- With the `i` flag, a match survives case variation of the path: if some
capture assignment matches `cs`, some assignment matches any case variant
`cs'` (literal comparisons use `toLower`, the slash structure is preserved
by `toLower_eq_slash_iff`, and capture constraints transfer). -/
theorem matchElems_caseVariant_mem :
    ∀ (es : List RElem) (cs cs' : List Char), caseVariant cs cs' = true →
      ∀ caps ∈ matchElems true es cs, ∃ caps', caps' ∈ matchElems true es cs' := by
  intro es
  induction es with
  | nil =>
    intro cs cs' h caps hc
    simp only [matchElems] at hc ⊢
    split at hc
    · next hemp =>
      have hnil : cs = [] := by simpa using hemp
      subst hnil
      have hnil' : cs' = [] := by
        cases cs' with
        | nil => rfl
        | cons b bs => simp [caseVariant_nil_cons] at h
      subst hnil'
      simp
    · simp at hc
  | cons e es ih =>
    intro cs cs' h caps hc
    cases e with
    | lit c =>
      cases cs with
      | nil => simp [matchElems] at hc
      | cons a as =>
        cases cs' with
        | nil => simp [caseVariant_cons_nil] at h
        | cons b bs =>
          simp only [caseVariant_cons_cons, Bool.and_eq_true, beq_iff_eq] at h
          simp only [matchElems] at hc ⊢
          split at hc
          · next hce =>
            have hce' : charEq true c b = true := by
              unfold charEq at hce ⊢
              simpa [← h.1] using hce
            rw [if_pos hce']
            exact ih as bs h.2 caps hc
          · simp at hc
    | seg nm =>
      simp only [matchElems] at hc ⊢
      rw [List.mem_flatMap] at hc
      obtain ⟨p, hp, hcp⟩ := hc
      split at hcp
      · next hcond =>
        rw [List.mem_map] at hcp
        obtain ⟨caps0, hcaps0, rfl⟩ := hcp
        obtain ⟨q, hq, hq1, hq2⟩ := splitsInc_caseVariant cs cs' h p hp
        obtain ⟨caps1, hcaps1⟩ := ih p.2 q.2 hq2 caps0 hcaps0
        have hqne : q.1 ≠ [] := by
          intro h0
          have hl := caseVariant_length hq1
          rw [h0] at hl
          exact hcond.1 (List.length_eq_zero.mp hl)
        have hqall : q.1.all (· != '/') = true := by
          rw [← caseVariant_all_ne_slash hq1]
          exact hcond.2
        refine ⟨(nm, q.1) :: caps1, ?_⟩
        rw [List.mem_flatMap]
        refine ⟨q, hq, ?_⟩
        rw [if_pos ⟨hqne, hqall⟩, List.mem_map]
        exact ⟨caps1, hcaps1, rfl⟩
      · simp at hcp
    | one nm =>
      simp only [matchElems] at hc ⊢
      rw [List.mem_flatMap] at hc
      obtain ⟨p, hp, hcp⟩ := hc
      rw [splitsDec, List.mem_reverse] at hp
      split at hcp
      · next hcond =>
        rw [List.mem_map] at hcp
        obtain ⟨caps0, hcaps0, rfl⟩ := hcp
        obtain ⟨q, hq, hq1, hq2⟩ := splitsInc_caseVariant cs cs' h p hp
        obtain ⟨caps1, hcaps1⟩ := ih p.2 q.2 hq2 caps0 hcaps0
        have hqne : q.1 ≠ [] := by
          intro h0
          have hl := caseVariant_length hq1
          rw [h0] at hl
          exact hcond (List.length_eq_zero.mp hl)
        refine ⟨(nm, q.1) :: caps1, ?_⟩
        rw [List.mem_flatMap]
        refine ⟨q, ?_, ?_⟩
        · rw [splitsDec, List.mem_reverse]
          exact hq
        · rw [if_pos hqne, List.mem_map]
          exact ⟨caps1, hcaps1, rfl⟩
      · simp at hcp
    | any nm =>
      simp only [matchElems] at hc ⊢
      rw [List.mem_flatMap] at hc
      obtain ⟨p, hp, hcp⟩ := hc
      rw [splitsDec, List.mem_reverse] at hp
      rw [List.mem_map] at hcp
      obtain ⟨caps0, hcaps0, rfl⟩ := hcp
      obtain ⟨q, hq, hq1, hq2⟩ := splitsInc_caseVariant cs cs' h p hp
      obtain ⟨caps1, hcaps1⟩ := ih p.2 q.2 hq2 caps0 hcaps0
      refine ⟨(nm, q.1) :: caps1, ?_⟩
      rw [List.mem_flatMap]
      refine ⟨q, ?_, ?_⟩
      · rw [splitsDec, List.mem_reverse]
        exact hq
      · rw [List.mem_map]
        exact ⟨caps1, hcaps1, rfl⟩
    | optPre nm =>
      cases cs with
      | nil =>
        have hnil' : cs' = [] := by
          cases cs' with
          | nil => rfl
          | cons b bs => simp [caseVariant_nil_cons] at h
        subst hnil'
        simp only [matchElems, List.nil_append] at hc ⊢
        exact ih [] [] rfl caps hc
      | cons a as =>
        cases cs' with
        | nil => simp [caseVariant_cons_nil] at h
        | cons b bs =>
          have hcv : caseVariant (a :: as) (b :: bs) = true := h
          simp only [caseVariant_cons_cons, Bool.and_eq_true, beq_iff_eq] at h
          simp only [matchElems] at hc ⊢
          by_cases ha : a = '/'
          · subst ha
            have hb : b = '/' := toLower_eq_slash_iff.mp (by rw [← h.1]; decide)
            subst hb
            rw [if_pos rfl] at hc ⊢
            rw [List.mem_append] at hc
            rcases hc with hc | hc
            · rw [List.mem_flatMap] at hc
              obtain ⟨p, hp, hcp⟩ := hc
              rw [splitsDec, List.mem_reverse] at hp
              rw [List.mem_map] at hcp
              obtain ⟨caps0, hcaps0, rfl⟩ := hcp
              obtain ⟨q, hq, hq1, hq2⟩ := splitsInc_caseVariant as bs h.2 p hp
              obtain ⟨caps1, hcaps1⟩ := ih p.2 q.2 hq2 caps0 hcaps0
              refine ⟨(nm, q.1) :: caps1, ?_⟩
              rw [List.mem_append]
              left
              rw [List.mem_flatMap]
              refine ⟨q, ?_, ?_⟩
              · rw [splitsDec, List.mem_reverse]
                exact hq
              · rw [List.mem_map]
                exact ⟨caps1, hcaps1, rfl⟩
            · obtain ⟨caps', hcaps'⟩ := ih ('/' :: as) ('/' :: bs) hcv caps hc
              exact ⟨caps', by rw [List.mem_append]; right; exact hcaps'⟩
          · have hb : b ≠ '/' := fun hb0 =>
              ha (toLower_eq_slash_iff.mp (by rw [h.1, hb0]; decide))
            rw [if_neg ha, List.nil_append] at hc
            rw [if_neg hb, List.nil_append]
            exact ih (a :: as) (b :: bs) hcv caps hc
    | optSlash =>
      cases cs with
      | nil =>
        have hnil' : cs' = [] := by
          cases cs' with
          | nil => rfl
          | cons b bs => simp [caseVariant_nil_cons] at h
        subst hnil'
        simp only [matchElems, List.nil_append] at hc ⊢
        exact ih [] [] rfl caps hc
      | cons a as =>
        cases cs' with
        | nil => simp [caseVariant_cons_nil] at h
        | cons b bs =>
          have hcv : caseVariant (a :: as) (b :: bs) = true := h
          simp only [caseVariant_cons_cons, Bool.and_eq_true, beq_iff_eq] at h
          simp only [matchElems] at hc ⊢
          by_cases ha : a = '/'
          · subst ha
            have hb : b = '/' := toLower_eq_slash_iff.mp (by rw [← h.1]; decide)
            subst hb
            rw [if_pos rfl] at hc ⊢
            rw [List.mem_append] at hc
            rcases hc with hc | hc
            · obtain ⟨caps', hcaps'⟩ := ih as bs h.2 caps hc
              exact ⟨caps', by rw [List.mem_append]; left; exact hcaps'⟩
            · obtain ⟨caps', hcaps'⟩ := ih ('/' :: as) ('/' :: bs) hcv caps hc
              exact ⟨caps', by rw [List.mem_append]; right; exact hcaps'⟩
          · have hb : b ≠ '/' := fun hb0 =>
              ha (toLower_eq_slash_iff.mp (by rw [h.1, hb0]; decide))
            rw [if_neg ha, List.nil_append] at hc
            rw [if_neg hb, List.nil_append]
            exact ih (a :: as) (b :: bs) hcv caps hc

/-- Compiling with the source's default flags `"i"` always yields a
case-insensitive matcher. -/
theorem createRegExpDefault_ci {pattern : String} {re : Re}
    (h : createRegExpDefault pattern = some re) : re.ci = true := by
  simp only [createRegExpDefault, createRegExp] at h
  split at h
  · injection h with h'
    rw [← h']
    rfl
  · exact absurd h (by simp)

/-- Claim C9: when the caller supplies no flags `createRegExp` compiles
with the source default `"i"`, and the matcher is then case-insensitive:
for case-variant paths (equal up to `Char.toLower` — in particular paths
differing from the pattern's literal segments only in letter case) one
matches exactly when the other does.  Supplying explicit flags overrides
the default: with flags `""` the matcher of `/Hello` rejects `/hello` while
accepting `/Hello`, whereas the default flags accept `/hello` too. -/
theorem C9_case_insensitivity (pattern : String) (re : Re)
    (hre : createRegExpDefault pattern = some re)
    (cs cs' : List Char) (h : caseVariant cs cs' = true) :
    ((matchElems re.ci re.elems cs).isEmpty =
      (matchElems re.ci re.elems cs').isEmpty) ∧
    execP "/Hello" "i" "/hello" = some [] ∧
    execP "/Hello" "" "/hello" = none ∧
    execP "/Hello" "" "/Hello" = some [] := by
  refine ⟨?_, by decide, by decide, by decide⟩
  rw [createRegExpDefault_ci hre]
  have h1 := matchElems_caseVariant_mem re.elems cs cs' h
  have h2 := matchElems_caseVariant_mem re.elems cs' cs
    (by rw [caseVariant_symm]; exact h)
  by_cases hA : matchElems true re.elems cs = []
  · by_cases hB : matchElems true re.elems cs' = []
    · rw [hA, hB]
    · obtain ⟨x, hx⟩ := List.exists_mem_of_ne_nil _ hB
      obtain ⟨y, hy⟩ := h2 x hx
      rw [hA] at hy
      exact absurd hy (List.not_mem_nil y)
  · by_cases hB : matchElems true re.elems cs' = []
    · obtain ⟨x, hx⟩ := List.exists_mem_of_ne_nil _ hA
      obtain ⟨y, hy⟩ := h1 x hx
      rw [hB] at hy
      exact absurd hy (List.not_mem_nil y)
    · have eA : (matchElems true re.elems cs).isEmpty = false := by
        simpa [List.isEmpty_iff] using hA
      have eB : (matchElems true re.elems cs').isEmpty = false := by
        simpa [List.isEmpty_iff] using hB
      rw [eA, eB]

/-- Witness for `C9_case_insensitivity`: the default-flag matcher of
`/Hello` treats the case variants `/hello` and `/HELLO` alike. -/
theorem C9_case_insensitivity_witness :
    createRegExpDefault "/Hello" = some (reOf "/Hello" "i") ∧
    caseVariant "/hello".data "/HELLO".data = true ∧
    (matchElems (reOf "/Hello" "i").ci (reOf "/Hello" "i").elems "/hello".data).isEmpty
      = (matchElems (reOf "/Hello" "i").ci (reOf "/Hello" "i").elems "/HELLO".data).isEmpty :=
  ⟨by decide, by decide,
   (C9_case_insensitivity "/Hello" (reOf "/Hello" "i") (by decide)
     "/hello".data "/HELLO".data (by decide)).1⟩

/-- An interleaving with an empty result has both sources empty. -/
theorem isInterleaving_nil {V : Type} [DecidableEq V] {as bs : List (TOp V)}
    (h : isInterleaving as bs [] = true) : as = [] ∧ bs = [] := by
  simp only [isInterleaving, Bool.and_eq_true, List.isEmpty_iff] at h
  exact h

/-- Interleaving is symmetric in its two sources. -/
theorem isInterleaving_comm {V : Type} [DecidableEq V] :
    ∀ (L as bs : List (TOp V)), isInterleaving as bs L = isInterleaving bs as L := by
  intro L
  induction L with
  | nil => intro as bs; simp [isInterleaving, Bool.and_comm]
  | cons c L ih =>
    intro as bs
    cases as <;> cases bs <;> simp [isInterleaving, ih, Bool.or_comm]

/-- The reads of frame `f` drop an observation of the same frame into the
result list. -/
theorem readsOf_cons_self {V : Type} (f : Nat) (r : Option V)
    (obs : List (Nat × Option V)) :
    readsOf f ((f, r) :: obs) = r :: readsOf f obs := by
  simp [readsOf]

/-- The reads of frame `f` ignore an observation of another frame. -/
theorem readsOf_cons_ne {V : Type} {g f : Nat} (hne : g ≠ f) (r : Option V)
    (obs : List (Nat × Option V)) :
    readsOf f ((g, r) :: obs) = readsOf f obs := by
  simp [readsOf, hne]

/-- Frame isolation of the modelled store: in any interleaving of the
frame-`f` operations `as` with operations `bs` of other frames, starting
from states that agree on frame `f`'s slot, the reads of frame `f` observe
exactly what running `as` alone observes — other frames' writes and resets
touch only their own slots. -/
theorem ctxRun_interleave {V : Type} [DecidableEq V] (f : Nat) :
    ∀ (L as bs : List (TOp V)) (s t : CtxState V),
      isInterleaving as bs L = true →
      (∀ op ∈ as, op.1 = f) → (∀ op ∈ bs, op.1 ≠ f) →
      s f = t f →
      readsOf f (ctxRun s L) = readsOf f (ctxRun t as) := by
  intro L
  induction L with
  | nil =>
    intro as bs s t hI ha hb hst
    obtain ⟨h1, h2⟩ := isInterleaving_nil hI
    subst h1
    rfl
  | cons c L ih =>
    intro as bs s t hI ha hb hst
    simp only [isInterleaving] at hI
    rw [Bool.or_eq_true] at hI
    rcases hI with hI | hI
    · cases as with
      | nil => simp at hI
      | cons a as' =>
        simp only [Bool.and_eq_true, decide_eq_true_eq] at hI
        obtain ⟨rfl, hI⟩ := hI
        have haf : a.1 = f := ha a (List.mem_cons_self _ _)
        obtain ⟨g, op⟩ := a
        simp only at haf
        have haf2 : f = g := haf.symm
        subst haf2
        have ha' : ∀ op ∈ as', op.1 = f := fun op hop => ha op (List.mem_cons_of_mem _ hop)
        cases op with
        | write v =>
          simp only [ctxRun]
          exact ih as' bs (ctxSet s f (some v)) (ctxSet t f (some v)) hI ha' hb
            (by simp [ctxSet])
        | read =>
          simp only [ctxRun, readsOf_cons_self, hst]
          exact congrArg _ (ih as' bs s t hI ha' hb hst)
        | reset =>
          simp only [ctxRun]
          exact ih as' bs (ctxSet s f none) (ctxSet t f none) hI ha' hb
            (by simp [ctxSet])
    · cases bs with
      | nil => simp at hI
      | cons b bs' =>
        simp only [Bool.and_eq_true, decide_eq_true_eq] at hI
        obtain ⟨rfl, hI⟩ := hI
        have hbf : b.1 ≠ f := hb b (List.mem_cons_self _ _)
        obtain ⟨g, op⟩ := b
        simp only at hbf
        have hb' : ∀ op ∈ bs', op.1 ≠ f := fun op hop => hb op (List.mem_cons_of_mem _ hop)
        cases op with
        | write v =>
          simp only [ctxRun]
          refine ih as bs' (ctxSet s g (some v)) t hI ha hb' ?_
          simp only [ctxSet]
          rw [if_neg (fun hfg => hbf hfg.symm)]
          exact hst
        | read =>
          simp only [ctxRun]
          rw [readsOf_cons_ne hbf]
          exact ih as bs' s t hI ha hb' hst
        | reset =>
          simp only [ctxRun]
          refine ih as bs' (ctxSet s g none) t hI ha hb' ?_
          simp only [ctxSet]
          rw [if_neg (fun hfg => hbf hfg.symm)]
          exact hst

/-- Claim C1 (the Context Store is modelled from the spec, its source not
being among the provided files): for two requests whose handling overlaps —
their cell operations interleaved arbitrarily at suspension points on the
single cooperative stream, each operation running under its own request's
ScopeFrame — every read in request 1's call tree observes exactly what it
would observe running alone, never a value written by request 2's tree, and
vice versa.  In particular, two trees each writing a distinct value to the
cell read back only their own value (see the witness). -/
theorem C1_scope_isolation {V : Type} [DecidableEq V]
    (A B : List (CtxOp V)) (L : List (TOp V))
    (hI : isInterleaving (tagOps 1 A) (tagOps 2 B) L = true) :
    readsOf 1 (ctxRun ctxEmpty L) = readsOf 1 (ctxRun ctxEmpty (tagOps 1 A)) ∧
    readsOf 2 (ctxRun ctxEmpty L) = readsOf 2 (ctxRun ctxEmpty (tagOps 2 B)) := by
  constructor
  · refine ctxRun_interleave 1 L (tagOps 1 A) (tagOps 2 B) ctxEmpty ctxEmpty hI ?_ ?_ rfl
    · intro op hop
      simp only [tagOps, List.mem_map] at hop
      obtain ⟨o, _, rfl⟩ := hop
      rfl
    · intro op hop
      simp only [tagOps, List.mem_map] at hop
      obtain ⟨o, _, rfl⟩ := hop
      simp
  · refine ctxRun_interleave 2 L (tagOps 2 B) (tagOps 1 A) ctxEmpty ctxEmpty ?_ ?_ ?_ rfl
    · rw [isInterleaving_comm]
      exact hI
    · intro op hop
      simp only [tagOps, List.mem_map] at hop
      obtain ⟨o, _, rfl⟩ := hop
      rfl
    · intro op hop
      simp only [tagOps, List.mem_map] at hop
      obtain ⟨o, _, rfl⟩ := hop
      simp

/-- Witness for `C1_scope_isolation`: requests 1 and 2 write the distinct
values 10 and 20 and then read, fully interleaved (write₁ write₂ read₁
read₂); each reads back only its own value. -/
theorem C1_scope_isolation_witness :
    isInterleaving (tagOps 1 [CtxOp.write 10, CtxOp.read])
        (tagOps 2 [CtxOp.write 20, CtxOp.read])
        [(1, CtxOp.write 10), (2, CtxOp.write 20), (1, CtxOp.read), (2, CtxOp.read)]
      = true ∧
    readsOf 1 (ctxRun ctxEmpty
        [(1, CtxOp.write 10), (2, CtxOp.write 20), (1, CtxOp.read), (2, CtxOp.read)])
      = [some 10] ∧
    readsOf 2 (ctxRun ctxEmpty
        [(1, CtxOp.write 10), (2, CtxOp.write 20), (1, CtxOp.read), (2, CtxOp.read)])
      = [some 20] ∧
    readsOf 1 (ctxRun ctxEmpty
        [(1, CtxOp.write 10), (2, CtxOp.write 20), (1, CtxOp.read), (2, CtxOp.read)])
      = readsOf 1 (ctxRun ctxEmpty (tagOps 1 [CtxOp.write 10, CtxOp.read])) :=
  ⟨by decide, by decide, by decide,
   (C1_scope_isolation [CtxOp.write 10, CtxOp.read] [CtxOp.write 20, CtxOp.read]
     [(1, CtxOp.write 10), (2, CtxOp.write 20), (1, CtxOp.read), (2, CtxOp.read)]
     (by decide)).1⟩

end Freesia
